import Mathlib

/-!
Shallow embedding of the text-normalization and audio-export core of the
EUL-AI TTS service (src/utils/text_processor.py, src/utils/tts_engine.py).

Python strings are modelled as Lean `String` (lists of characters); `len`
is the character count, matching Python's code-point count on the inputs
considered here.  Python's `None`-or-string arguments are modelled as
`Option String`; where a claim distinguishes non-string inputs we use the
small `PyVal` type with the `str()` coercion.  The regular expressions of
the source are small enough to be embedded directly as scanning functions.
Whitespace and word-character classes are the ASCII portions of Python's
`\s` and `\w`; every input appearing in the claims is ASCII.
-/

/-- ASCII portion of Python's whitespace class `\s` (also the class used by
`str.strip` and `str.split()`). -/
def isPySpace (c : Char) : Bool :=
  c == ' ' || c == '\t' || c == '\n' || c == '\r' || c == '\x0b' || c == '\x0c'

/-- ASCII portion of Python's word class `\w`. -/
def isWordChar (c : Char) : Bool :=
  c.isAlphanum || c == '_'

/-- `re.sub(r'\s+', ' ', text)`: every maximal run of whitespace becomes a
single space. -/
def collapseWs : List Char → List Char
  | [] => []
  | [c] => [if isPySpace c then ' ' else c]
  | a :: b :: t =>
    if isPySpace a && isPySpace b then collapseWs (b :: t)
    else (if isPySpace a then ' ' else a) :: collapseWs (b :: t)

/-- Remove trailing whitespace (the right half of Python's `str.strip()`). -/
def dropTrailWs : List Char → List Char
  | [] => []
  | c :: t =>
    match dropTrailWs t with
    | [] => if isPySpace c then [] else [c]
    | r => c :: r

/-- Python `str.strip()`. -/
def pyStrip (l : List Char) : List Char :=
  dropTrailWs (l.dropWhile isPySpace)

/-- Character-list core of `TextProcessor.clean_text` on a string input:
`re.sub(r'\s+', ' ', text).strip()`. -/
def cleanChars (l : List Char) : List Char :=
  pyStrip (collapseWs l)

/-- `TextProcessor.clean_text` restricted to string input. -/
def cleanStr (s : String) : String :=
  ⟨cleanChars s.data⟩

/-- A Python value as far as `clean_text` can observe it: `None`, a string,
or a representative non-string value (an integer). -/
inductive PyVal
  | none : PyVal
  | str : String → PyVal
  | int : Int → PyVal
deriving DecidableEq

/-- `TextProcessor.clean_text`: `None` yields `""`; a non-string argument is
coerced with `str()` (Lean's `toString` on `Int` agrees with Python's
rendering of integers); then whitespace is collapsed and stripped. -/
def clean_text : PyVal → String
  | PyVal.none => ""
  | PyVal.str s => cleanStr s
  | PyVal.int n => cleanStr (toString n)

/-- `TextProcessor.ABBREVIATIONS`, in the source's insertion order. -/
def ABBREVIATIONS : List (String × String) :=
  [("Dr.", "Doctor"), ("Mr.", "Mister"), ("Mrs.", "Missus"), ("Ms.", "Miss"),
   ("Prof.", "Professor"), ("e.g.", "for example"), ("i.e.", "that is"),
   ("etc.", "etcetera"), ("vs.", "versus"), ("v.", "versus"), ("vs", "versus"),
   ("v", "versus"), ("approx.", "approximately"), ("min.", "minimum"),
   ("max.", "maximum"), ("No.", "Number"), ("no.", "number"), ("St.", "Street"),
   ("Ave.", "Avenue"), ("Blvd.", "Boulevard"), ("Rd.", "Road"),
   ("Ltd.", "Limited"), ("Inc.", "Incorporated"), ("Corp.", "Corporation"),
   ("Co.", "Company"), ("Jan.", "January"), ("Feb.", "February"),
   ("Mar.", "March"), ("Apr.", "April"), ("Aug.", "August"),
   ("Sep.", "September"), ("Sept.", "September"), ("Oct.", "October"),
   ("Nov.", "November"), ("Dec.", "December")]

/-- Stable insertion of one table entry into a list already sorted by
descending key length: skip entries with strictly longer keys, so an entry
goes before every entry whose key is not longer (in particular before
equal-length entries inserted from further right in the original list). -/
def insLen (x : String × String) : List (String × String) → List (String × String)
  | [] => [x]
  | q :: t => if x.1.length < q.1.length then q :: insLen x t else x :: q :: t

/-- `sorted(ABBREVIATIONS.items(), key=len of abbreviation, reverse=True)`:
Python's `sorted` is stable, which `foldr insLen` reproduces. -/
def sortedAbbrevs : List (String × String) :=
  ABBREVIATIONS.foldr insLen []

/-- Boundary test shared by the two regex shapes in
`TextProcessor.expand_abbreviations`.  Every abbreviation in the table starts
with a word character, and the ones without a trailing period also end with
one, so both `(?<!\w)pat(?!\w)` (period case) and `\b pat \b` (plain case)
reduce to: the character before the match (if any) is not a word character,
and the character after the match (if any) is not a word character. -/
def boundaryOk (prev next : Option Char) : Bool :=
  (match prev with | some c => !isWordChar c | Option.none => true) &&
  (match next with | some c => !isWordChar c | Option.none => true)

/-- One pass of `re.sub(pattern, rep, ·)` for a literal pattern with the
boundary conditions above.  Scanning moves left to right over the original
characters; after a replacement it resumes after the matched text, and the
lookbehind always inspects the original text (so `prev` becomes the last
character of the matched pattern, not of the replacement).  `fuel` is the
length of the scanned list, enough because every step consumes at least one
character. -/
def substAux (pat rep : List Char) : Nat → Option Char → List Char → List Char
  | 0, _, l => l
  | fuel + 1, prev, l =>
    match l with
    | [] => []
    | c :: cs =>
      if !pat.isEmpty && pat.isPrefixOf l && boundaryOk prev (l.drop pat.length).head? then
        rep ++ substAux pat rep fuel pat.getLast? (l.drop pat.length)
      else
        c :: substAux pat rep fuel (some c) cs

/-- `re.sub` of one abbreviation over a character list. -/
def subst1 (pat rep : String) (l : List Char) : List Char :=
  substAux pat.data rep.data l.length Option.none l

/-- Character-list core of `TextProcessor.expand_abbreviations`: apply the
substitutions sequentially, longest abbreviation first. -/
def expandChars (l : List Char) : List Char :=
  sortedAbbrevs.foldl (fun acc p => subst1 p.1 p.2 acc) l

/-- `TextProcessor.expand_abbreviations` on a string: a falsy (empty) string
is returned unchanged, otherwise every abbreviation is substituted. -/
def expand_abbreviations (s : String) : String :=
  if s = "" then s else ⟨expandChars s.data⟩

/-- `TextProcessor.expand_abbreviations` including the `None` case:
`if not text: return text` hands back `None` and `""` unchanged. -/
def expand_abbreviations_py : Option String → Option String
  | Option.none => Option.none
  | some s => some (expand_abbreviations s)

/-- Default of `TextProcessor.MIN_TEXT_LENGTH`. -/
def MIN_TEXT_LENGTH : Nat := 3

/-- `TextProcessor.validate_text`.  The text argument is `Option String`
(`none` = Python `None`); `min_length = none` selects `MIN_TEXT_LENGTH`.
The returned pair is `(is_valid, error_message)`. -/
def validate_text (text : Option String) (max_length : Nat)
    (min_length : Option Nat) : Bool × Option String :=
  let m := min_length.getD MIN_TEXT_LENGTH
  match text with
  | Option.none => (false, some "Text cannot be empty")
  | some s =>
    if s = "" then (false, some "Text cannot be empty")
    else if cleanStr s = "" then (false, some "Text cannot be empty")
    else if (cleanStr s).length < m then
      (false, some ("Text is too short (minimum " ++ toString m ++ " characters)"))
    else if (cleanStr s).length > max_length then
      (false, some ("Text is too long (maximum " ++ toString max_length ++
        " characters, got " ++ toString (cleanStr s).length ++ ")"))
    else (true, Option.none)

/-- Python `truncated.rfind(' ')`: index of the last space, `-1` if none. -/
def rfindSpaceAux : List Char → Nat → Int → Int
  | [], _, acc => acc
  | c :: t, i, acc => rfindSpaceAux t (i + 1) (if c = ' ' then Int.ofNat i else acc)

/-- Index of the last `' '` in the list, or `-1`. -/
def rfindSpace (l : List Char) : Int :=
  rfindSpaceAux l 0 (-1)

/-- The pipeline prefix of `TextProcessor.preprocess_for_tts`:
clean, expand abbreviations, clean again. -/
def processedOf (text : String) : String :=
  cleanStr (expand_abbreviations (cleanStr text))

/-- `TextProcessor.preprocess_for_tts`.  The Python guard
`last_space > max_length * 0.8` compares an integer against the float
`max_length * 0.8`; for every `max_length` below 2^49 that float comparison
coincides with the exact rational comparison `5 * last_space > 4 * max_length`
(when `5 ∣ max_length` the product rounds to the exact integer, otherwise the
two sides are at least 0.2 apart), which is how it is embedded here. -/
def preprocess_for_tts (text : String) (max_length : Nat) : String :=
  if text = "" then ""
  else
    let p := processedOf text
    if p.length > max_length then
      let truncated := p.data.take max_length
      let lastSpace := rfindSpace truncated
      if 5 * lastSpace > 4 * (max_length : Int) then
        ⟨truncated.take lastSpace.toNat⟩
      else
        ⟨truncated⟩
    else p

/-- One `foldr` step of Python `text.split()`: a whitespace character opens
a fresh (possibly empty) word, any other character extends the first word. -/
def splitWsStep (c : Char) (acc : List (List Char)) : List (List Char) :=
  if isPySpace c then [] :: acc
  else
    match acc with
    | [] => [[c]]
    | w :: ws => (c :: w) :: ws

/-- Python `text.split()` (split on whitespace runs, no empty words). -/
def splitWsFold (l : List Char) : List (List Char) :=
  (l.foldr splitWsStep []).filter (fun w => !w.isEmpty)

/-- `" ".join(words)`. -/
def joinSp : List (List Char) → List Char
  | [] => []
  | [w] => w
  | w :: ws => w ++ ' ' :: joinSp ws

/-- `" ".join(text.split())` — the whitespace collapse used by
`TTSEngine.preprocess_text`. -/
def pyCollapse (s : String) : String :=
  ⟨joinSp (splitWsFold s.data)⟩

/-- No two adjacent characters are both whitespace. -/
def noAdjPairs : List Char → Bool
  | a :: b :: t => (!(isPySpace a && isPySpace b)) && noAdjPairs (b :: t)
  | _ => true

/-- The shape of a whitespace-collapsed string: no leading whitespace, no
trailing whitespace, and no two adjacent whitespace characters. -/
def collapsedOk (l : List Char) : Bool :=
  (match l.head? with | some c => !isPySpace c | Option.none => true) &&
  (match l.getLast? with | some c => !isPySpace c | Option.none => true) &&
  noAdjPairs l

/-- `if text and text[-1] not in '.!?': text += '.'` — an empty text is
falsy and left alone. -/
def addPeriodIfMissing (l : List Char) : List Char :=
  match l.getLast? with
  | Option.none => l
  | some c => if c = '.' ∨ c = '!' ∨ c = '?' then l else l ++ ['.']

/-- `TTSEngine.preprocess_text`: collapse whitespace, hard-truncate to
`max_length`, then append `'.'` when the (truthy) text does not already end
in `'.'`, `'!'` or `'?'`.  Note the period is appended after the truncation. -/
def TTSEngine.preprocess_text (text : String) (max_length : Nat) : String :=
  let t := pyCollapse text
  let t2 := if t.length > max_length then (⟨t.data.take max_length⟩ : String) else t
  ⟨addPeriodIfMissing t2.data⟩

/-- Normalization step of `TTSEngine.split_text`:
`text.replace('!', '.').replace('?', '.')`. -/
def normalizeTerm (l : List Char) : List Char :=
  l.map (fun c => if c = '!' ∨ c = '?' then '.' else c)

/-- Python `str.split(sep)` for a one-character separator: keeps empty
pieces, always returns at least one piece. -/
def splitOnC (sep : Char) (l : List Char) : List (List Char) :=
  l.foldr (fun c acc =>
    if c = sep then [] :: acc
    else
      match acc with
      | [] => [[c]]
      | p :: ps => (c :: p) :: ps) [[]]

/-- Sentence list of `TTSEngine.split_text`:
`[s.strip() + '.' for s in text.replace(...).split('.') if s.strip()]`. -/
def sentencesOf (text : String) : List (List Char) :=
  (((splitOnC '.' (normalizeTerm text.data)).map pyStrip).filter
    (fun s => !s.isEmpty)).map (fun s => s ++ ['.'])

/-- One step of the greedy packing loop of `TTSEngine.split_text`; the state
is `(chunks, current_chunk)`.  Note the guard compares
`len(current_chunk) + len(sentence)` to the budget but the concatenation
inserts an extra joining space. -/
def packStep (maxLen : Nat) (st : List (List Char) × List Char) (s : List Char) :
    List (List Char) × List Char :=
  if st.2.length + s.length ≤ maxLen then (st.1, st.2 ++ ' ' :: s)
  else if st.2.isEmpty then (st.1, s)
  else (st.1 ++ [pyStrip st.2], s)

/-- `TTSEngine.split_text`. -/
def TTSEngine.split_text (text : String) (max_chunk_length : Nat) : List String :=
  let st := (sentencesOf text).foldl (packStep max_chunk_length) ([], [])
  let chunks := if st.2.isEmpty then st.1 else st.1 ++ [pyStrip st.2]
  chunks.map (fun l => (⟨l⟩ : String))

/-- The synthesis capability replaced by a stub: every call returns the same
fixed waveform `w` (samples as integers), regardless of the chunk text. -/
def stubSynth (w : List Int) (_text : String) : List Int :=
  w

/-- `TTSEngine._generate_long_speech` with the stubbed synthesis capability:
split the text (default budget 250), synthesize each chunk in order, and
concatenate the per-chunk waveforms (`np.concatenate`). -/
def TTSEngine.generate_long_speech (w : List Int) (text : String) : List Int :=
  (((TTSEngine.split_text text 250).map (stubSynth w)).foldr (· ++ ·) [])

/-- The direct (non-chunked) branch of `TTSEngine.generate_speech` with the
stubbed synthesis capability. -/
def TTSEngine.direct_generate (w : List Int) (text : String) : List Int :=
  stubSynth w text

/-- `TTSEngine.generate_speech` with the stubbed synthesis capability:
preprocess (default `max_length` 500), then chunked path if the result is
longer than 250 characters, else the direct path. -/
def TTSEngine.generate_speech (w : List Int) (text : String) : List Int :=
  let t := TTSEngine.preprocess_text text 500
  if t.length > 250 then TTSEngine.generate_long_speech w t else TTSEngine.direct_generate w t

/-- Position of the last `'.'` in a character list, if any. -/
def rfindDot (l : List Char) : Option Nat :=
  l.foldl (fun st c =>
    match st with
    | (i, acc) => (i + 1, if c = '.' then some i else acc)) (0, Option.none) |>.2

/-- Final path component (text after the last `'/'`). -/
def lastComponent (p : String) : List Char :=
  (splitOnC '/' p.data).getLastD []

/-- `pathlib.Path(p).suffix`: the extension of the final component including
its dot; empty when there is no dot, when the only dot leads the component
(hidden files), or when the dot is final. -/
def pathSuffix (p : String) : String :=
  let comp := lastComponent p
  match rfindDot comp with
  | Option.none => ""
  | some i => if i = 0 ∨ i + 1 = comp.length then "" else ⟨comp.drop i⟩

/-- `pathlib.Path(p).with_suffix(newSuf)`: replace (or add) the extension of
the final component. -/
def pathWithSuffix (p : String) (newSuf : String) : String :=
  ⟨p.data.take (p.length - (pathSuffix p).length) ++ newSuf.data⟩

/-- `TTSEngine.save_audio`, restricted to its path logic.  The waveform and
sample rate do not influence which file is written or what is returned, so
they are omitted; the two environment flags say whether the `pydub`
dependency imported and whether the MP3 transcode (ffmpeg) succeeds.  The
result is the path actually written and the Python return value of the call.
Every exit of the Python function is either a bare `return` or falling off
the end, so the return value is `None` on every path. -/
def TTSEngine.save_audio (pydubAvailable transcodeOk : Bool) (output_path : String) :
    String × Option String :=
  let file_ext : String := ⟨(pathSuffix output_path).data.map Char.toLower⟩
  if file_ext = ".mp3" then
    if !pydubAvailable then
      -- warning, fall back to WAV: write `<path>.wav`, fall off the end
      (pathWithSuffix output_path ".wav", Option.none)
    else if transcodeOk then
      -- MP3 written at the requested path, bare `return`
      (output_path, Option.none)
    else
      -- transcode failed: fall back to WAV, fall off the end
      (pathWithSuffix output_path ".wav", Option.none)
  else
    -- non-MP3 extension: WAV data written at the requested path
    (output_path, Option.none)

/-- `TTSEngine.text_to_speech_file`: generates speech, calls `save_audio`,
and returns `actual_path = self.save_audio(...)` — i.e. whatever
`save_audio` returns. -/
def TTSEngine.text_to_speech_file (pydubAvailable transcodeOk : Bool)
    (output_path : String) : Option String :=
  (TTSEngine.save_audio pydubAvailable transcodeOk output_path).2

/-- The truncation procedure in the words of the (amended) specification of
`preprocess_for_tts`, applied to the already-processed text: cut at
`maxLen`; find the last space within the cut prefix; if its position is
strictly greater than 80 percent of `maxLen`, cut there (excluding the
space), otherwise keep the hard cut.  Compared against the code's composed
pipeline in the C2 theorem. -/
def truncateSpecStrict (p : List Char) (maxLen : Nat) : List Char :=
  let truncated := p.take maxLen
  let lastSpace := rfindSpace truncated
  if 5 * lastSpace > 4 * (maxLen : Int) then truncated.take lastSpace.toNat
  else truncated

/-- Key lengths of a substitution table are non-increasing (longest
abbreviation first). -/
def lenSortedDesc : List (String × String) → Bool
  | [] => true
  | [_] => true
  | p :: q :: t => (q.1.length ≤ p.1.length : Bool) && lenSortedDesc (q :: t)

example : clean_text (PyVal.str "  Hello   world  ") = "Hello world" := by decide

example : clean_text (PyVal.int 42) = "42" := by decide

example : clean_text PyVal.none = "" := by decide

example : cleanStr "a\t\n b" = "a b" := by decide

example : expand_abbreviations "Dr. Smith" = "Doctor Smith" := by decide

example : expand_abbreviations "Mr. and Mrs. Jones" = "Mister and Missus Jones" := by decide

example : expand_abbreviations "e.g. example" = "for example example" := by decide

example : expand_abbreviations "Dr.Dr." = "Dr.Doctor" := by decide

example : expand_abbreviations "a v b" = "a versus b" := by decide

example : expand_abbreviations "Drive" = "Drive" := by decide

example : validate_text (some "Hello world") 2000 Option.none = (true, Option.none) := by decide

example : (validate_text (some "Hi") 2000 Option.none).1 = false := by decide

example : (validate_text (some "   ") 2000 Option.none).2 = some "Text cannot be empty" := by decide

example : rfindSpace "ab c d".data = 4 := by decide

example : rfindSpace "abc".data = -1 := by decide

example : preprocess_for_tts "  Dr. Smith said hello  " 2000 = "Doctor Smith said hello" := by decide

example : preprocess_for_tts "abcdefgh i jk" 10 = "abcdefgh i" := by decide

example : preprocess_for_tts "abcdefghi j kl" 10 = "abcdefghi" := by decide

example : pyCollapse "  a \t b  " = "a b" := by decide

theorem noAdjPairs_tail {a : Char} {t : List Char}
    (h : noAdjPairs (a :: t) = true) : noAdjPairs t = true := by
  cases t with
  | nil => rfl
  | cons b t' =>
    simp only [noAdjPairs, Bool.and_eq_true] at h
    exact h.2

theorem collapseWs_head (l : List Char) :
    (collapseWs l).head? = l.head?.map (fun c => if isPySpace c then ' ' else c) := by
  induction l with
  | nil => rfl
  | cons a t ih =>
    cases t with
    | nil => simp [collapseWs]
    | cons b t' =>
      by_cases hab : (isPySpace a && isPySpace b) = true
      · have ha : isPySpace a = true := (Bool.and_eq_true _ _ |>.mp hab).1
        have hb : isPySpace b = true := (Bool.and_eq_true _ _ |>.mp hab).2
        simp [collapseWs, hab, ih, ha, hb]
      · simp [collapseWs, hab]

theorem noAdjPairs_collapseWs : ∀ l : List Char, noAdjPairs (collapseWs l) = true := by
  intro l
  induction l with
  | nil => rfl
  | cons a t ih =>
    cases t with
    | nil =>
      simp [collapseWs, noAdjPairs]
    | cons b t' =>
      by_cases hab : (isPySpace a && isPySpace b) = true
      · simpa [collapseWs, hab] using ih
      · have hh := collapseWs_head (b :: t')
        cases hcw : collapseWs (b :: t') with
        | nil => rw [hcw] at hh; simp at hh
        | cons y ys =>
          rw [hcw] at hh
          simp only [List.head?_cons, List.head?_map] at hh
          have hy : y = if isPySpace b then ' ' else b := by
            simpa using hh
          rw [hcw] at ih
          simp only [collapseWs, hab, if_neg, Bool.false_eq_true, ite_false, hcw,
            noAdjPairs, Bool.and_eq_true, Bool.not_eq_true']
          refine ⟨?_, ih⟩
          by_cases ha : isPySpace a = true
          · have hb : isPySpace b = false := by
              cases hb' : isPySpace b
              · rfl
              · exact absurd (by simp [ha, hb']) hab
            subst hy
            simp [ha, hb]
          · simp [Bool.not_eq_true] at ha
            simp [ha]

theorem head_dropWhile_not (p : Char → Bool) (l : List Char) {c : Char}
    (h : (l.dropWhile p).head? = some c) : p c = false := by
  induction l with
  | nil => simp [List.dropWhile] at h
  | cons a t ih =>
    by_cases hpa : p a = true
    · rw [List.dropWhile_cons, if_pos hpa] at h
      exact ih h
    · rw [List.dropWhile_cons, if_neg hpa] at h
      simp only [List.head?_cons, Option.some.injEq] at h
      subst h
      simpa using hpa

theorem noAdjPairs_dropWhile (p : Char → Bool) (l : List Char)
    (h : noAdjPairs l = true) : noAdjPairs (l.dropWhile p) = true := by
  induction l with
  | nil => exact h
  | cons a t ih =>
    by_cases hpa : p a = true
    · rw [List.dropWhile_cons, if_pos hpa]
      exact ih (noAdjPairs_tail h)
    · rw [List.dropWhile_cons, if_neg hpa]
      exact h

theorem dropTrailWs_head {t : List Char} {x : Char} {xs : List Char}
    (h : dropTrailWs t = x :: xs) : t.head? = some x := by
  cases t with
  | nil => simp [dropTrailWs] at h
  | cons c t' =>
    simp only [dropTrailWs] at h
    cases hct : dropTrailWs t' with
    | nil =>
      rw [hct] at h
      by_cases hc : isPySpace c = true
      · simp [hc] at h
      · simp only [Bool.not_eq_true] at hc
        simp [hc] at h
        simp [h.1]
    | cons y ys =>
      rw [hct] at h
      simp only [List.cons.injEq] at h
      simp [h.1]

theorem dropTrailWs_last (l : List Char) {c : Char}
    (h : (dropTrailWs l).getLast? = some c) : isPySpace c = false := by
  induction l with
  | nil => simp [dropTrailWs] at h
  | cons a t ih =>
    simp only [dropTrailWs] at h
    cases hct : dropTrailWs t with
    | nil =>
      rw [hct] at h
      by_cases ha : isPySpace a = true
      · simp [ha] at h
      · simp only [Bool.not_eq_true] at ha
        simp [ha] at h
        rw [← h]
        exact ha
    | cons y ys =>
      rw [hct] at h
      rw [List.getLast?_cons_cons] at h
      rw [← hct] at h
      exact ih h

theorem noAdjPairs_dropTrailWs (l : List Char)
    (h : noAdjPairs l = true) : noAdjPairs (dropTrailWs l) = true := by
  induction l with
  | nil => exact h
  | cons a t ih =>
    simp only [dropTrailWs]
    cases hct : dropTrailWs t with
    | nil =>
      by_cases ha : isPySpace a = true
      · simp [ha]; rfl
      · simp [ha]; rfl
    | cons y ys =>
      have htail : noAdjPairs (y :: ys) = true := by
        rw [← hct]; exact ih (noAdjPairs_tail h)
      have hyt : t.head? = some y := dropTrailWs_head hct
      cases t with
      | nil => simp at hyt
      | cons b t' =>
        simp only [List.head?_cons, Option.some.injEq] at hyt
        subst hyt
        simp only [noAdjPairs, Bool.and_eq_true] at h
        simp only [noAdjPairs, Bool.and_eq_true]
        exact ⟨h.1, htail⟩

theorem collapsedOk_cleanChars (l : List Char) : collapsedOk (cleanChars l) = true := by
  have hadj : noAdjPairs (cleanChars l) = true :=
    noAdjPairs_dropTrailWs _
      (noAdjPairs_dropWhile _ _ (noAdjPairs_collapseWs l))
  have hhead : (match (cleanChars l).head? with
      | some c => !isPySpace c | Option.none => true) = true := by
    cases hh : (cleanChars l).head? with
    | none => rfl
    | some c =>
      unfold cleanChars pyStrip at hh
      cases hdt : dropTrailWs ((collapseWs l).dropWhile isPySpace) with
      | nil => rw [hdt] at hh; simp at hh
      | cons x xs =>
        rw [hdt] at hh
        simp only [List.head?_cons, Option.some.injEq] at hh
        subst hh
        have := dropTrailWs_head hdt
        have hpc := head_dropWhile_not isPySpace (collapseWs l) this
        simp [hpc]
  have hlast : (match (cleanChars l).getLast? with
      | some c => !isPySpace c | Option.none => true) = true := by
    cases hh : (cleanChars l).getLast? with
    | none => rfl
    | some c =>
      unfold cleanChars pyStrip at hh
      have := dropTrailWs_last _ hh
      simp [this]
  unfold collapsedOk
  rw [hadj]
  cases hh : (cleanChars l).head? <;> cases hl : (cleanChars l).getLast? <;>
    rw [hh] at hhead <;> rw [hl] at hlast <;> simp_all

theorem splitWsFold_ne_nil (l : List Char) : ∀ w ∈ splitWsFold l, w ≠ [] := by
  intro w hw
  unfold splitWsFold at hw
  have := List.mem_filter.mp hw
  simpa using this.2

theorem splitWsFold_no_ws (l : List Char) :
    ∀ w ∈ splitWsFold l, ∀ c ∈ w, isPySpace c = false := by
  have raw : ∀ w ∈ l.foldr splitWsStep [], ∀ c ∈ w, isPySpace c = false := by
    induction l with
    | nil => intro w hw; simp at hw
    | cons a t ih =>
      intro w hw c hc
      simp only [List.foldr_cons, splitWsStep] at hw
      by_cases ha : isPySpace a = true
      · rw [if_pos ha] at hw
        cases hw with
        | head => simp at hc
        | tail _ hw' => exact ih w hw' c hc
      · rw [if_neg ha] at hw
        simp only [Bool.not_eq_true] at ha
        cases hfold : t.foldr splitWsStep [] with
        | nil =>
          rw [hfold] at hw
          simp only [List.mem_singleton] at hw
          subst hw
          simp only [List.mem_singleton] at hc
          subst hc
          exact ha
        | cons v vs =>
          rw [hfold] at hw
          cases hw with
          | head =>
            cases hc with
            | head => exact ha
            | tail _ hc' => exact ih v (hfold ▸ List.mem_cons_self v vs) c hc'
          | tail _ hw' => exact ih w (hfold ▸ List.mem_cons_of_mem v hw') c hc
  intro w hw
  unfold splitWsFold at hw
  exact raw w (List.mem_filter.mp hw).1

theorem joinSp_ne_nil (ws : List (List Char)) (hne : ws ≠ [])
    (hw : ∀ w ∈ ws, w ≠ []) : joinSp ws ≠ [] := by
  cases ws with
  | nil => exact absurd rfl hne
  | cons w t =>
    cases t with
    | nil => exact hw w (List.mem_cons_self _ _)
    | cons v t' =>
      simp only [joinSp]
      intro hcontra
      have := List.append_eq_nil.mp hcontra
      exact absurd this.2 (by simp)

theorem joinSp_head (w : List Char) (ws : List (List Char)) (hw : w ≠ []) :
    (joinSp (w :: ws)).head? = w.head? := by
  cases ws with
  | nil => rfl
  | cons v t =>
    simp only [joinSp]
    cases w with
    | nil => exact absurd rfl hw
    | cons c w' => simp

theorem joinSp_last (ws : List (List Char))
    (hfree : ∀ w ∈ ws, ∀ c ∈ w, isPySpace c = false)
    (hne : ws ≠ []) (hw : ∀ w ∈ ws, w ≠ []) :
    ∃ c, (joinSp ws).getLast? = some c ∧ isPySpace c = false := by
  induction ws with
  | nil => exact absurd rfl hne
  | cons w t ih =>
    cases t with
    | nil =>
      have hwne : w ≠ [] := hw w (List.mem_cons_self _ _)
      have : (joinSp [w]).getLast?.isSome := by
        simp only [joinSp]
        exact List.getLast?_isSome.mpr hwne
      obtain ⟨c, hc⟩ := Option.isSome_iff_exists.mp this
      refine ⟨c, hc, ?_⟩
      have hcmem : c ∈ w := List.mem_of_mem_getLast? (by simp only [joinSp] at hc; simp [hc])
      exact hfree w (List.mem_cons_self _ _) c hcmem
    | cons v t' =>
      have hne' : v :: t' ≠ [] := by simp
      have hw' : ∀ u ∈ v :: t', u ≠ [] := fun u hu => hw u (List.mem_cons_of_mem _ hu)
      have hfree' : ∀ u ∈ v :: t', ∀ c ∈ u, isPySpace c = false :=
        fun u hu => hfree u (List.mem_cons_of_mem _ hu)
      obtain ⟨c, hc, hcws⟩ := ih hfree' hne' hw'
      refine ⟨c, ?_, hcws⟩
      simp only [joinSp]
      rw [List.getLast?_append_of_ne_nil _ (by simp)]
      cases hj : joinSp (v :: t') with
      | nil => exact absurd hj (joinSp_ne_nil _ hne' hw')
      | cons y ys =>
        rw [List.getLast?_cons_cons, ← hj]
        exact hc

theorem noAdjPairs_of_no_ws (l : List Char)
    (h : ∀ c ∈ l, isPySpace c = false) : noAdjPairs l = true := by
  induction l with
  | nil => rfl
  | cons a t ih =>
    cases t with
    | nil => rfl
    | cons b t' =>
      simp only [noAdjPairs, Bool.and_eq_true, Bool.not_eq_true']
      refine ⟨?_, ih fun c hc => h c (List.mem_cons_of_mem _ hc)⟩
      simp [h a (List.mem_cons_self _ _)]

theorem noAdjPairs_append (l1 l2 : List Char)
    (h1 : noAdjPairs l1 = true) (h2 : noAdjPairs l2 = true)
    (hmid : ∀ a b, l1.getLast? = some a → l2.head? = some b →
      (isPySpace a && isPySpace b) = false) :
    noAdjPairs (l1 ++ l2) = true := by
  induction l1 with
  | nil => simpa using h2
  | cons a t ih =>
    cases t with
    | nil =>
      cases l2 with
      | nil => simpa using h1
      | cons b l2' =>
        simp only [List.singleton_append, noAdjPairs, Bool.and_eq_true,
          Bool.not_eq_true']
        exact ⟨hmid a b rfl rfl, h2⟩
    | cons b t' =>
      simp only [List.cons_append, noAdjPairs, Bool.and_eq_true,
        Bool.not_eq_true'] at h1 ⊢
      refine ⟨h1.1, ?_⟩
      have := ih h1.2 (fun x y hx hy =>
        hmid x y (by rw [List.getLast?_cons_cons]; exact hx) hy)
      simpa using this

theorem noAdjPairs_joinSp (ws : List (List Char))
    (hfree : ∀ w ∈ ws, ∀ c ∈ w, isPySpace c = false)
    (hw : ∀ w ∈ ws, w ≠ []) :
    noAdjPairs (joinSp ws) = true := by
  induction ws with
  | nil => rfl
  | cons w t ih =>
    cases t with
    | nil =>
      simp only [joinSp]
      exact noAdjPairs_of_no_ws w (hfree w (List.mem_cons_self _ _))
    | cons v t' =>
      have hne' : v :: t' ≠ [] := by simp
      have hw' : ∀ u ∈ v :: t', u ≠ [] := fun u hu => hw u (List.mem_cons_of_mem _ hu)
      have hfree' : ∀ u ∈ v :: t', ∀ c ∈ u, isPySpace c = false :=
        fun u hu => hfree u (List.mem_cons_of_mem _ hu)
      simp only [joinSp]
      apply noAdjPairs_append
      · exact noAdjPairs_of_no_ws w (hfree w (List.mem_cons_self _ _))
      · -- noAdjPairs (' ' :: joinSp (v :: t'))
        cases hj : joinSp (v :: t') with
        | nil => rfl
        | cons y ys =>
          simp only [noAdjPairs, Bool.and_eq_true, Bool.not_eq_true']
          constructor
          · have hy : y ∈ joinSp (v :: t') → True := fun _ => trivial
            have hhead : (joinSp (v :: t')).head? = v.head? :=
              joinSp_head v t' (hw' v (List.mem_cons_self _ _))
            rw [hj] at hhead
            simp only [List.head?_cons] at hhead
            have hyv : y ∈ v := by
              cases v with
              | nil => simp at hhead
              | cons d v' =>
                simp only [List.head?_cons, Option.some.injEq] at hhead
                rw [← hhead]
                exact List.mem_cons_self _ _
            have := hfree' v (List.mem_cons_self _ _) y hyv
            simp [this]
          · rw [← hj]
            exact ih hfree' hw'
      · intro a b ha hb
        have hamem : a ∈ w := List.mem_of_mem_getLast? (by simp [ha])
        have := hfree w (List.mem_cons_self _ _) a hamem
        simp [this]

theorem collapsedOk_pyCollapse (s : String) : collapsedOk (pyCollapse s).data = true := by
  have hdata : (pyCollapse s).data = joinSp (splitWsFold s.data) := rfl
  rw [hdata]
  have hfree := splitWsFold_no_ws s.data
  have hwne := splitWsFold_ne_nil s.data
  have hadj := noAdjPairs_joinSp _ hfree hwne
  unfold collapsedOk
  rw [hadj]
  cases hws : splitWsFold s.data with
  | nil => simp [joinSp]
  | cons w t =>
    rw [hws] at hfree hwne hadj
    have hhead : (joinSp (w :: t)).head? = w.head? :=
      joinSp_head w t (hwne w (List.mem_cons_self _ _))
    obtain ⟨c, hc, hcws⟩ := joinSp_last (w :: t) hfree (by simp) hwne
    rw [hc, hhead]
    cases w with
    | nil => exact absurd rfl (hwne [] (List.mem_cons_self _ _))
    | cons d w' =>
      have hd : isPySpace d = false :=
        hfree _ (List.mem_cons_self _ _) d (List.mem_cons_self _ _)
      simp [hd, hcws]

theorem collapsedOk_intro (l : List Char)
    (hh : ∀ c, l.head? = some c → isPySpace c = false)
    (hl : ∀ c, l.getLast? = some c → isPySpace c = false)
    (ha : noAdjPairs l = true) : collapsedOk l = true := by
  unfold collapsedOk
  rw [ha]
  cases hh' : l.head? with
  | none =>
    cases hl' : l.getLast? with
    | none => rfl
    | some c => simp [hl c hl']
  | some c =>
    cases hl' : l.getLast? with
    | none => simp [hh c hh']
    | some d => simp [hh c hh', hl d hl']

theorem collapsedOk_head {l : List Char} (h : collapsedOk l = true) :
    ∀ c, l.head? = some c → isPySpace c = false := by
  intro c hc
  unfold collapsedOk at h
  rw [hc] at h
  simp only [Bool.and_eq_true, Bool.not_eq_true'] at h
  exact h.1.1

theorem collapsedOk_noAdj {l : List Char} (h : collapsedOk l = true) :
    noAdjPairs l = true := by
  unfold collapsedOk at h
  simp only [Bool.and_eq_true] at h
  exact h.2

theorem noAdjPairs_take (l : List Char) :
    ∀ n, noAdjPairs l = true → noAdjPairs (l.take n) = true := by
  induction l with
  | nil => intro n h; simpa using h
  | cons a t ih =>
    intro n h
    cases n with
    | zero => rfl
    | succ m =>
      rw [List.take_succ_cons]
      cases t with
      | nil => simpa using h
      | cons b t' =>
        cases m with
        | zero => rfl
        | succ k =>
          rw [List.take_succ_cons]
          simp only [noAdjPairs, Bool.and_eq_true, Bool.not_eq_true'] at h ⊢
          refine ⟨h.1, ?_⟩
          have := ih (k + 1) h.2
          rwa [List.take_succ_cons] at this

example : TTSEngine.preprocess_text "Hello world" 500 = "Hello world." := by decide

example : TTSEngine.preprocess_text "Hi!" 500 = "Hi!" := by decide

example : TTSEngine.preprocess_text "   " 500 = "" := by decide

example : splitOnC '.' "a.b.".data = ["a".data, "b".data, ([] : List Char)] := by decide

example : TTSEngine.split_text "Hello. World." 250 = ["Hello. World."] := by decide

example : TTSEngine.split_text "Hi." 250 = ["Hi."] := by decide

example : TTSEngine.split_text "aaaa.bbbb.cccc." 10 = ["aaaa.", "bbbb. cccc."] := by decide

example : pathSuffix "x.mp3" = ".mp3" := by decide

example : pathSuffix "dir/x.wav" = ".wav" := by decide

example : pathWithSuffix "x.mp3" ".wav" = "x.wav" := by decide

example : pathWithSuffix "out/x.mp3" ".wav" = "out/x.wav" := by decide

theorem addPeriod_props (l2 : List Char) (hne : l2 ≠ [])
    (hhead : ∀ c, l2.head? = some c → isPySpace c = false)
    (hadj : noAdjPairs l2 = true) :
    (∃ c, (addPeriodIfMissing l2).getLast? = some c ∧ (c = '.' ∨ c = '!' ∨ c = '?'))
    ∧ collapsedOk (addPeriodIfMissing l2) = true := by
  cases hgl : l2.getLast? with
  | none => exact absurd (List.getLast?_eq_none_iff.mp hgl) hne
  | some c =>
    have hred : addPeriodIfMissing l2 =
        if c = '.' ∨ c = '!' ∨ c = '?' then l2 else l2 ++ ['.'] := by
      unfold addPeriodIfMissing
      rw [hgl]
    rw [hred]
    by_cases hterm : c = '.' ∨ c = '!' ∨ c = '?'
    · rw [if_pos hterm]
      refine ⟨⟨c, hgl, hterm⟩, ?_⟩
      refine collapsedOk_intro l2 hhead ?_ hadj
      intro d hd
      rw [hgl] at hd
      injection hd with hd
      subst hd
      rcases hterm with rfl | rfl | rfl <;> decide
    · rw [if_neg hterm]
      refine ⟨⟨'.', List.getLast?_concat l2, Or.inl rfl⟩, ?_⟩
      refine collapsedOk_intro _ ?_ ?_ ?_
      · intro d hd
        cases l2 with
        | nil => exact absurd rfl hne
        | cons a t =>
          simp only [List.cons_append, List.head?_cons, Option.some.injEq] at hd
          subst hd
          exact hhead _ rfl
      · intro d hd
        rw [List.getLast?_concat] at hd
        injection hd with hd
        subst hd
        decide
      · refine noAdjPairs_append l2 ['.'] hadj rfl ?_
        intro a b _ hb
        simp only [List.head?_cons, Option.some.injEq] at hb
        subst hb
        have hdot : isPySpace '.' = false := by decide
        simp [hdot]

theorem foldrSplit_no_ws (l : List Char) (h : ∀ c ∈ l, isPySpace c = false)
    (hne : l ≠ []) : l.foldr splitWsStep [] = [l] := by
  induction l with
  | nil => exact absurd rfl hne
  | cons a t ih =>
    simp only [List.foldr_cons]
    have ha := h a (List.mem_cons_self _ _)
    cases t with
    | nil => simp [splitWsStep, ha]
    | cons b t' =>
      have ht := ih (fun c hc => h c (List.mem_cons_of_mem _ hc)) (by simp)
      rw [ht]
      simp [splitWsStep, ha]

theorem splitWsFold_no_ws_input (l : List Char) (h : ∀ c ∈ l, isPySpace c = false)
    (hne : l ≠ []) : splitWsFold l = [l] := by
  unfold splitWsFold
  rw [foldrSplit_no_ws l h hne]
  simp [hne]

theorem pyCollapse_no_ws (l : List Char) (h : ∀ c ∈ l, isPySpace c = false) :
    pyCollapse ⟨l⟩ = ⟨l⟩ := by
  by_cases hne : l = []
  · subst hne; rfl
  · unfold pyCollapse
    have hd : (String.mk l).data = l := rfl
    rw [hd, splitWsFold_no_ws_input l h hne]
    rfl

theorem getLast?_replicate_succ (n : Nat) (a : Char) :
    (List.replicate (n + 1) a).getLast? = some a := by
  induction n with
  | zero => rfl
  | succ m ih =>
    rw [List.replicate_succ, List.replicate_succ, List.getLast?_cons_cons,
      ← List.replicate_succ]
    exact ih

theorem preprocess_text_data (s : String) (maxL : Nat) :
    (TTSEngine.preprocess_text s maxL).data =
      addPeriodIfMissing (if (pyCollapse s).length > maxL
        then (pyCollapse s).data.take maxL else (pyCollapse s).data) := by
  unfold TTSEngine.preprocess_text
  by_cases h : (pyCollapse s).length > maxL
  · simp only [if_pos h]
  · simp only [if_neg h]

theorem preprocess_text_replicate_len (maxL : Nat) (hm : 1 ≤ maxL) :
    (TTSEngine.preprocess_text ⟨List.replicate (maxL + 1) 'a'⟩ maxL).length = maxL + 1 := by
  have hrep : ∀ c ∈ List.replicate (maxL + 1) 'a', isPySpace c = false := by
    intro c hc
    rw [List.eq_of_mem_replicate hc]
    decide
  have hlen : (TTSEngine.preprocess_text ⟨List.replicate (maxL + 1) 'a'⟩ maxL).length
      = (TTSEngine.preprocess_text ⟨List.replicate (maxL + 1) 'a'⟩ maxL).data.length := rfl
  rw [hlen, preprocess_text_data, pyCollapse_no_ws _ hrep]
  have hgt : (String.mk (List.replicate (maxL + 1) 'a')).length > maxL := by
    show (List.replicate (maxL + 1) 'a').length > maxL
    rw [List.length_replicate]
    omega
  rw [if_pos hgt]
  have hdat : (String.mk (List.replicate (maxL + 1) 'a')).data
      = List.replicate (maxL + 1) 'a' := rfl
  rw [hdat, List.take_replicate]
  have hmin : min maxL (maxL + 1) = maxL := by omega
  rw [hmin]
  obtain ⟨k, rfl⟩ : ∃ k, maxL = k + 1 := ⟨maxL - 1, by omega⟩
  have hred : addPeriodIfMissing (List.replicate (k + 1) 'a') =
      List.replicate (k + 1) 'a' ++ ['.'] := by
    unfold addPeriodIfMissing
    rw [getLast?_replicate_succ]
    exact if_neg (by decide)
  rw [hred, List.length_append, List.length_replicate]
  rfl

/-- C9 (corrected): the engine-internal `TTSEngine.preprocess_text` guarantees,
for every input whose whitespace-collapse is non-empty (the claim's "non-empty
input" fails on all-whitespace inputs, see the counterexample) and every
positive `max_length`, that the output ends in `'.'`, `'!'` or `'?'` and is
whitespace-collapsed; and because the period is appended after truncation the
output length can reach `max_length + 1`. -/
theorem C9_engine_preprocess_terminator (s : String) (maxL : Nat)
    (hm : 1 ≤ maxL) (hs : pyCollapse s ≠ "") :
    (∃ c, (TTSEngine.preprocess_text s maxL).data.getLast? = some c ∧
      (c = '.' ∨ c = '!' ∨ c = '?'))
    ∧ collapsedOk (TTSEngine.preprocess_text s maxL).data = true
    ∧ (TTSEngine.preprocess_text ⟨List.replicate (maxL + 1) 'a'⟩ maxL).length
        = maxL + 1 := by
  have hdne : (pyCollapse s).data ≠ [] := by
    intro h
    exact hs (String.ext_iff.mpr h)
  have hcOk := collapsedOk_pyCollapse s
  have hdata := preprocess_text_data s maxL
  by_cases hlen : (pyCollapse s).length > maxL
  · rw [if_pos hlen] at hdata
    have hne2 : (pyCollapse s).data.take maxL ≠ [] := by
      intro h
      rcases List.take_eq_nil_iff.mp h with h0 | h0
      · omega
      · exact hdne h0
    have hhead2 : ∀ c, ((pyCollapse s).data.take maxL).head? = some c →
        isPySpace c = false := by
      intro c hc
      rw [List.head?_take] at hc
      rw [if_neg (by omega)] at hc
      exact collapsedOk_head hcOk c hc
    have hadj2 := noAdjPairs_take (pyCollapse s).data maxL (collapsedOk_noAdj hcOk)
    obtain ⟨h1, h2⟩ := addPeriod_props _ hne2 hhead2 hadj2
    rw [hdata]
    exact ⟨h1, h2, preprocess_text_replicate_len maxL hm⟩
  · rw [if_neg hlen] at hdata
    obtain ⟨h1, h2⟩ := addPeriod_props _ hdne (collapsedOk_head hcOk)
      (collapsedOk_noAdj hcOk)
    rw [hdata]
    exact ⟨h1, h2, preprocess_text_replicate_len maxL hm⟩

/-- C9 counterexample: `"   "` is a non-empty input, yet the output of
`TTSEngine.preprocess_text` on it is empty and ends in no terminator
character, refuting the claim's "for every non-empty input" form. -/
theorem C9_engine_preprocess_cex :
    ("   " : String) ≠ "" ∧
    TTSEngine.preprocess_text "   " 500 = "" ∧
    (TTSEngine.preprocess_text "   " 500).data.getLast? = Option.none := by decide

/-- Witness for C9 at the concrete input `"hello"` with `max_length = 500`. -/
theorem C9_engine_preprocess_terminator_witness :
    (∃ c, (TTSEngine.preprocess_text "hello" 500).data.getLast? = some c ∧
      (c = '.' ∨ c = '!' ∨ c = '?'))
    ∧ collapsedOk (TTSEngine.preprocess_text "hello" 500).data = true
    ∧ (TTSEngine.preprocess_text ⟨List.replicate 501 'a'⟩ 500).length = 501 :=
  C9_engine_preprocess_terminator "hello" 500 (by decide) (by decide)

/-- C7 counterexample: a non-string input is not mapped to the empty string —
`clean_text` coerces it with `str()` and cleans the result, so the integer
`42` yields `"42"`. -/
theorem C7_clean_text_cex : clean_text (PyVal.int 42) = "42" ∧ ("42" : String) ≠ "" := by
  decide

/-- C7 (corrected): `clean_text` is total; `None` yields `""`, a non-string
input is coerced with `str()` and then cleaned, and for every string input
the result is whitespace-collapsed (no adjacent whitespace, no leading or
trailing whitespace); in particular the three quoted evaluations hold. -/
theorem C7_clean_text_total :
    clean_text PyVal.none = ""
    ∧ clean_text (PyVal.str "") = ""
    ∧ clean_text (PyVal.str "  Hello   world  ") = "Hello world"
    ∧ (∀ n : Int, clean_text (PyVal.int n) = cleanStr (toString n))
    ∧ ∀ s : String, collapsedOk (clean_text (PyVal.str s)).data = true := by
  refine ⟨by decide, by decide, by decide, fun n => rfl, fun s => ?_⟩
  exact collapsedOk_cleanChars s.data

/-- C5: `validate_text` case analysis — absent or cleaned-empty text is
invalid with the emptiness reason; cleaned length below the minimum is
invalid with a reason containing the rendered minimum; cleaned length above
the maximum is invalid with a reason containing both the rendered maximum
and the rendered actual length; otherwise valid with a null reason.  The
embedding is a pure function, so the caller's input is never mutated. -/
theorem C5_validate_text_cases (s : String) (maxL : Nat) (minL : Option Nat) :
    (validate_text Option.none maxL minL = (false, some "Text cannot be empty"))
    ∧ (cleanStr s = "" →
        validate_text (some s) maxL minL = (false, some "Text cannot be empty"))
    ∧ (cleanStr s ≠ "" → (cleanStr s).length < minL.getD MIN_TEXT_LENGTH →
        ∃ r, validate_text (some s) maxL minL = (false, some r) ∧
          ∃ a b, r = a ++ toString (minL.getD MIN_TEXT_LENGTH) ++ b)
    ∧ (minL.getD MIN_TEXT_LENGTH ≤ (cleanStr s).length →
        maxL < (cleanStr s).length →
        ∃ r, validate_text (some s) maxL minL = (false, some r) ∧
          (∃ a b, r = a ++ toString maxL ++ b) ∧
          ∃ a b, r = a ++ toString (cleanStr s).length ++ b)
    ∧ (cleanStr s ≠ "" → minL.getD MIN_TEXT_LENGTH ≤ (cleanStr s).length →
        (cleanStr s).length ≤ maxL →
        validate_text (some s) maxL minL = (true, Option.none)) := by
  refine ⟨rfl, ?_, ?_, ?_, ?_⟩
  · intro h
    by_cases hs0 : s = ""
    · simp [validate_text, hs0]
    · simp [validate_text, hs0, h]
  · intro hne hlt
    have hs0 : s ≠ "" := by
      intro h
      subst h
      exact hne rfl
    refine ⟨"Text is too short (minimum " ++ toString (minL.getD MIN_TEXT_LENGTH)
      ++ " characters)", ?_, "Text is too short (minimum ", " characters)", rfl⟩
    simp [validate_text, hs0, hne, hlt]
  · intro hge hgt
    have hne : cleanStr s ≠ "" := by
      intro h
      rw [h] at hgt
      simp at hgt
    have hs0 : s ≠ "" := by
      intro h
      subst h
      exact hne rfl
    refine ⟨"Text is too long (maximum " ++ toString maxL ++ " characters, got "
      ++ toString (cleanStr s).length ++ ")", ?_,
      ⟨"Text is too long (maximum ",
        " characters, got " ++ toString (cleanStr s).length ++ ")", by
          simp [String.append_assoc]⟩,
      ⟨"Text is too long (maximum " ++ toString maxL ++ " characters, got ",
        ")", by simp [String.append_assoc]⟩⟩
    have h1 : ¬ (cleanStr s).length < minL.getD MIN_TEXT_LENGTH := by omega
    simp [validate_text, hs0, hne, h1, hgt]
  · intro hne hge hle
    have hs0 : s ≠ "" := by
      intro h
      subst h
      exact hne rfl
    have h1 : ¬ (cleanStr s).length < minL.getD MIN_TEXT_LENGTH := by omega
    have h2 : ¬ maxL < (cleanStr s).length := by omega
    simp [validate_text, hs0, hne, h1, h2]

/-- Witness for C5 at concrete inputs: the valid case at `"Hello world"` and
the too-short case at `"Hi"` with the default limits. -/
theorem C5_validate_text_cases_witness :
    validate_text (some "Hello world") 2000 Option.none = (true, Option.none)
    ∧ ∃ r, validate_text (some "Hi") 2000 Option.none = (false, some r) ∧
        ∃ a b, r = a ++ toString ((Option.none : Option Nat).getD MIN_TEXT_LENGTH) ++ b :=
  ⟨(C5_validate_text_cases "Hello world" 2000 Option.none).2.2.2.2
      (by decide) (by decide) (by decide),
   (C5_validate_text_cases "Hi" 2000 Option.none).2.2.1 (by decide) (by decide)⟩

/-- C6: `expand_abbreviations` applies the fixed table longest-first (the
sorted table is exactly a permutation of the table with key lengths
non-increasing), matches case-sensitively and not inside larger words
(witnessed by the lowercase and embedded-word evaluations), and the three
quoted evaluations hold. -/
theorem C6_expand_abbreviations :
    lenSortedDesc sortedAbbrevs = true
    ∧ sortedAbbrevs.Perm ABBREVIATIONS
    ∧ expand_abbreviations "Dr. Smith" = "Doctor Smith"
    ∧ expand_abbreviations "Mr. and Mrs. Jones" = "Mister and Missus Jones"
    ∧ expand_abbreviations "e.g. example" = "for example example"
    ∧ expand_abbreviations "dr. Smith" = "dr. Smith"
    ∧ expand_abbreviations "Drive" = "Drive" := by decide

/-- C10: `expand_abbreviations` hands back a falsy argument unchanged —
`None` stays `None` (not the empty string) and `""` stays `""` — whereas
`clean_text` coerces `None` to the empty string. -/
theorem C10_expand_falsy_identity :
    expand_abbreviations_py Option.none = Option.none
    ∧ expand_abbreviations_py (some "") = some ""
    ∧ clean_text PyVal.none = "" := by decide

/-- C1 (code bug): `save_audio` writes the WAV fallback path when the MP3
path cannot be produced, but no exit of the function returns a value, so
`text_to_speech_file`, whose docstring promises the actual audio path, always
returns `None` — in particular in the fallback case the claim's required
return value would be "x.wav" yet the call returns `None`. -/
theorem C1_export_returns_none :
    (∀ (pd tc : Bool) (p : String), TTSEngine.text_to_speech_file pd tc p = Option.none)
    ∧ (TTSEngine.save_audio false true "x.mp3").1 = "x.wav"
    ∧ (TTSEngine.save_audio true false "x.mp3").1 = "x.wav"
    ∧ (TTSEngine.save_audio true true "x.mp3").1 = "x.mp3" := by
  refine ⟨?_, by decide, by decide, by decide⟩
  intro pd tc p
  show (TTSEngine.save_audio pd tc p).2 = Option.none
  unfold TTSEngine.save_audio
  dsimp only
  split_ifs <;> rfl

/-- C3 (code bug): with budget 10, `split_text` packs `"bbbb."` and
`"cccc."` into one chunk of length 11, because the greedy guard
`len(current_chunk) + len(sentence) <= max_chunk_length` does not count the
joining space that the concatenation then inserts; the chunk holds two
sentences and exceeds the budget. -/
theorem C3_split_text_overlong_chunk :
    TTSEngine.split_text "aaaa.bbbb.cccc." 10 = ["aaaa.", "bbbb. cccc."]
    ∧ ("bbbb. cccc." : String).length = 11
    ∧ (("bbbb. cccc." : String).data.filter (fun c => c = '.')).length = 2 := by
  decide

/-- C2 counterexample: on `"abcdefgh i jk"` with `max_length = 10` the last
space of the hard cut sits exactly at 80 percent of the budget (index 8 =
0.8·10), so the claim's "greater than or equal" rule demands the
word-boundary cut `"abcdefgh"`; the code's strict comparison keeps the hard
cut `"abcdefgh i"`. -/
theorem C2_truncation_cex :
    (processedOf "abcdefgh i jk").length = 13
    ∧ rfindSpace ((processedOf "abcdefgh i jk").data.take 10) = 8
    ∧ 5 * (8 : Int) ≥ 4 * 10
    ∧ preprocess_for_tts "abcdefgh i jk" 10 = "abcdefgh i"
    ∧ preprocess_for_tts "abcdefgh i jk" 10 ≠ "abcdefgh" := by decide

/-- C2 (corrected): for every text whose processed form exceeds
`max_length`, `preprocess_for_tts` performs exactly the spec-side truncation
with a STRICT comparison: cut at `max_length`, find the last space of the
cut prefix, cut there (excluding the space) when its position is strictly
greater than 80 percent of `max_length`, and keep the hard cut otherwise. -/
theorem C2_truncation_strict (text : String) (maxL : Nat)
    (h : (processedOf text).length > maxL) :
    preprocess_for_tts text maxL = ⟨truncateSpecStrict (processedOf text).data maxL⟩ := by
  have ht : text ≠ "" := by
    intro h0
    subst h0
    have hp0 : processedOf "" = "" := rfl
    rw [hp0] at h
    simp at h
  unfold preprocess_for_tts truncateSpecStrict
  rw [if_neg ht, if_pos h]
  by_cases hc : 5 * rfindSpace ((processedOf text).data.take maxL) > 4 * (maxL : Int)
  · rw [if_pos hc, if_pos hc]
  · rw [if_neg hc, if_neg hc]

/-- Witness for C2 at the concrete input of the counterexample. -/
theorem C2_truncation_strict_witness :
    preprocess_for_tts "abcdefgh i jk" 10 =
      ⟨truncateSpecStrict (processedOf "abcdefgh i jk").data 10⟩ :=
  C2_truncation_strict "abcdefgh i jk" 10 (by decide)

theorem collapseWs_no_ws (l : List Char) (h : ∀ c ∈ l, isPySpace c = false) :
    collapseWs l = l := by
  induction l with
  | nil => rfl
  | cons a t ih =>
    have ha := h a (List.mem_cons_self _ _)
    cases t with
    | nil => simp [collapseWs, ha]
    | cons b t' =>
      have hb := h b (List.mem_cons_of_mem _ (List.mem_cons_self _ _))
      have ht := ih (fun c hc => h c (List.mem_cons_of_mem _ hc))
      simp [collapseWs, ha, hb, ht]

theorem dropTrailWs_no_ws (l : List Char) (h : ∀ c ∈ l, isPySpace c = false) :
    dropTrailWs l = l := by
  induction l with
  | nil => rfl
  | cons a t ih =>
    have ha := h a (List.mem_cons_self _ _)
    have ht := ih (fun c hc => h c (List.mem_cons_of_mem _ hc))
    simp only [dropTrailWs, ht]
    cases t with
    | nil => simp [ha]
    | cons b t' => rfl

theorem cleanChars_no_ws (l : List Char) (h : ∀ c ∈ l, isPySpace c = false) :
    cleanChars l = l := by
  unfold cleanChars pyStrip
  rw [collapseWs_no_ws l h]
  cases l with
  | nil => rfl
  | cons a t =>
    rw [List.dropWhile_cons, if_neg (by simp [h a (List.mem_cons_self _ _)])]
    exact dropTrailWs_no_ws _ h

theorem not_prefix_replicate (pat : List Char) (hpat : ∃ c ∈ pat, c ≠ 'a') :
    ∀ k, pat.isPrefixOf (List.replicate k 'a') = false := by
  induction pat with
  | nil =>
    obtain ⟨c, hc, _⟩ := hpat
    simp at hc
  | cons p pt ih =>
    intro k
    cases k with
    | zero => rfl
    | succ m =>
      rw [List.replicate_succ, List.isPrefixOf_cons₂]
      obtain ⟨c, hc, hne⟩ := hpat
      rcases List.mem_cons.mp hc with rfl | hct
      · have : (c == 'a') = false := beq_eq_false_iff_ne.mpr hne
        simp [this]
      · have := ih ⟨c, hct, hne⟩ m
        simp [this]

theorem substAux_replicate (pat rep : List Char) (hpat : ∃ c ∈ pat, c ≠ 'a') :
    ∀ (fuel : Nat) (prev : Option Char) (k : Nat),
      substAux pat rep fuel prev (List.replicate k 'a') = List.replicate k 'a' := by
  intro fuel
  induction fuel with
  | zero => intro prev k; rfl
  | succ f ih =>
    intro prev k
    cases k with
    | zero => rfl
    | succ m =>
      have hp := not_prefix_replicate pat hpat (m + 1)
      rw [List.replicate_succ] at hp
      rw [List.replicate_succ]
      simp only [substAux, hp, Bool.and_false, Bool.false_and, Bool.and_true,
        Bool.false_eq_true, if_false]
      rw [ih (some 'a') m]

theorem expandChars_replicate (n : Nat) :
    expandChars (List.replicate n 'a') = List.replicate n 'a' := by
  have hall : ∀ p ∈ sortedAbbrevs, ∃ c ∈ (p.1 : String).data, c ≠ 'a' := by decide
  unfold expandChars
  have h : ∀ L : List (String × String),
      (∀ p ∈ L, ∃ c ∈ (p.1 : String).data, c ≠ 'a') →
      L.foldl (fun acc p => subst1 p.1 p.2 acc) (List.replicate n 'a')
        = List.replicate n 'a' := by
    intro L
    induction L with
    | nil => intro _; rfl
    | cons p t ih =>
      intro hl
      simp only [List.foldl_cons]
      have h1 : subst1 p.1 p.2 (List.replicate n 'a') = List.replicate n 'a' := by
        unfold subst1
        exact substAux_replicate _ _ (hl p (List.mem_cons_self _ _)) _ _ n
      rw [h1]
      exact ih (fun q hq => hl q (List.mem_cons_of_mem _ hq))
  exact h sortedAbbrevs hall

theorem rfindSpaceAux_no_space (l : List Char) (h : ∀ c ∈ l, c ≠ ' ') :
    ∀ (i : Nat) (acc : Int), rfindSpaceAux l i acc = acc := by
  induction l with
  | nil => intro i acc; rfl
  | cons a t ih =>
    intro i acc
    simp only [rfindSpaceAux]
    rw [if_neg (h a (List.mem_cons_self _ _))]
    exact ih (fun c hc => h c (List.mem_cons_of_mem _ hc)) (i + 1) acc

theorem processedOf_replicate600 :
    processedOf ⟨List.replicate 600 'a'⟩ = ⟨List.replicate 600 'a'⟩ := by
  have hws : ∀ c ∈ List.replicate 600 'a', isPySpace c = false := by
    intro c hc
    rw [List.eq_of_mem_replicate hc]
    decide
  have h1 : cleanStr ⟨List.replicate 600 'a'⟩ = ⟨List.replicate 600 'a'⟩ := by
    unfold cleanStr
    rw [show (String.mk (List.replicate 600 'a')).data = List.replicate 600 'a' from rfl]
    rw [cleanChars_no_ws _ hws]
  have h2 : expand_abbreviations ⟨List.replicate 600 'a'⟩ = ⟨List.replicate 600 'a'⟩ := by
    unfold expand_abbreviations
    rw [if_neg (by
      intro hcontra
      have := String.ext_iff.mp hcontra
      simp only [List.replicate_eq_nil_iff] at this
      exact absurd this (by decide))]
    rw [show (String.mk (List.replicate 600 'a')).data = List.replicate 600 'a' from rfl]
    rw [expandChars_replicate]
  unfold processedOf
  rw [h1, h2, h1]

/-- C8: the output of `preprocess_for_tts` never exceeds `max_length`
characters, for every text and every budget; and on 600 `'a'`s with budget
500 the output length is exactly 500 (the hard cut is kept because the
truncated prefix contains no space). -/
theorem C8_preprocess_length_bound :
    (∀ (t : String) (m : Nat), (preprocess_for_tts t m).length ≤ m)
    ∧ (preprocess_for_tts ⟨List.replicate 600 'a'⟩ 500).length = 500 := by
  constructor
  · intro t m
    unfold preprocess_for_tts
    by_cases ht : t = ""
    · rw [if_pos ht]
      simp
    · rw [if_neg ht]
      dsimp only
      by_cases hp : (processedOf t).length > m
      · rw [if_pos hp]
        by_cases hc : 5 * rfindSpace ((processedOf t).data.take m) > 4 * (m : Int)
        · rw [if_pos hc]
          show (((processedOf t).data.take m).take _).length ≤ m
          rw [List.length_take, List.length_take]
          omega
        · rw [if_neg hc]
          show ((processedOf t).data.take m).length ≤ m
          rw [List.length_take]
          omega
      · rw [if_neg hp]
        omega
  · have hne : (String.mk (List.replicate 600 'a')) ≠ "" := by
      intro hcontra
      have := String.ext_iff.mp hcontra
      simp only [List.replicate_eq_nil_iff] at this
      exact absurd this (by decide)
    unfold preprocess_for_tts
    rw [if_neg hne]
    dsimp only
    rw [processedOf_replicate600]
    have hlen : (String.mk (List.replicate 600 'a')).length = 600 := by
      show (List.replicate 600 'a').length = 600
      rw [List.length_replicate]
    rw [hlen]
    rw [if_pos (by omega)]
    have hdat : (String.mk (List.replicate 600 'a')).data = List.replicate 600 'a' := rfl
    rw [hdat, List.take_replicate]
    have hmin : min 500 600 = 500 := by omega
    rw [hmin]
    have hnosp : rfindSpace (List.replicate 500 'a') = -1 := by
      unfold rfindSpace
      exact rfindSpaceAux_no_space _ (by
        intro c hc
        rw [List.eq_of_mem_replicate hc]
        decide) 0 (-1)
    rw [hnosp]
    rw [if_neg (by decide)]
    show (List.replicate 500 'a').length = 500
    rw [List.length_replicate]

/-- C4: with the synthesis capability stubbed by a fixed waveform `w` per
call, the chunked path `_generate_long_speech` returns a waveform whose
sample count is the stub length times the number of chunks (the sum of the
per-chunk lengths), and when the text splits into a single chunk it returns
exactly the waveform of the direct non-chunked branch of `generate_speech`. -/
theorem C4_chunk_reassembly :
    (∀ (w : List Int) (t : String),
      (TTSEngine.generate_long_speech w t).length
        = w.length * (TTSEngine.split_text t 250).length)
    ∧ (∀ (w : List Int) (t : String),
        (TTSEngine.split_text t 250).length = 1 →
        TTSEngine.generate_long_speech w t = TTSEngine.direct_generate w t) := by
  have hjoin : ∀ (w : List Int) (cs : List String),
      ((cs.map (stubSynth w)).foldr (· ++ ·) []).length = w.length * cs.length := by
    intro w cs
    induction cs with
    | nil => simp
    | cons c t ih =>
      simp only [List.map_cons, List.foldr_cons, List.length_append, ih, stubSynth]
      rw [List.length_cons]
      ring
  constructor
  · intro w t
    exact hjoin w (TTSEngine.split_text t 250)
  · intro w t h1
    unfold TTSEngine.generate_long_speech TTSEngine.direct_generate
    cases hs : TTSEngine.split_text t 250 with
    | nil =>
      rw [hs] at h1
      simp at h1
    | cons c rest =>
      rw [hs] at h1
      simp only [List.length_cons] at h1
      have hrest : rest = [] := by
        cases rest with
        | nil => rfl
        | cons d r => simp at h1
      subst hrest
      simp [stubSynth]

/-- Witness for C4 at the one-chunk input `"Hi."` with stub waveform
`[1, 2, 3]`. -/
theorem C4_chunk_reassembly_witness :
    TTSEngine.generate_long_speech [1, 2, 3] "Hi."
      = TTSEngine.direct_generate [1, 2, 3] "Hi." :=
  C4_chunk_reassembly.2 [1, 2, 3] "Hi." (by decide)
